import Mathlib

/-!
# Verification of the `nel` session coordinator (src/lib/nel.js)

This file gives a shallow embedding, in Lean 4, of the parts of
`src/lib/nel.js` that the specification's claims are about:

* the Javascript expression parser `parseExpression` (nel.js:1099-1175)
  together with the two regular expressions it uses,
* the completion logic of `Session.prototype.complete` (nel.js:721-843),
* the task scheduler / message router
  (`Session.prototype._run`, `_runNow`, `_runLater`, `_onMessage`,
  nel.js:498-662), modelled as an executable state machine over an
  explicit session state, and
* session construction, `kill` and `restart` (nel.js:117-191, 1002-1027).

Machine integers do not occur; all sizes are `Nat`/`Int`.  Javascript
string primitives (`slice`, `charAt`, `indexOf`, `lastIndexOf`) are
embedded with their exact clamping/out-of-range semantics on `List Char`.
-/

namespace Nel

/-! ## Javascript string primitives -/

/-- `String.prototype.slice(a, b)` on a list of characters: negative
indices count from the end, indices are clamped to `[0, length]`, and an
empty list results when the normalised start is not before the end. -/
def jsSliceChars (l : List Char) (a b : Int) : List Char :=
  let len : Int := l.length
  let norm : Int → Nat := fun x => (if x < 0 then max (len + x) 0 else min x len).toNat
  (l.take (norm b)).drop (norm a)

/-- `String.prototype.charAt(i)`: `none` models the empty string that
Javascript returns for an out-of-range (including negative) index. -/
def jsCharAt (l : List Char) (i : Int) : Option Char :=
  if i < 0 then none else l.get? i.toNat

/-- `String.prototype.indexOf(pat)` returning `-1` when `pat` does not
occur; the empty pattern matches at index 0. -/
def jsIndexOfAux (pat : List Char) : List Char → Nat → Int
  | [], i => if pat.isPrefixOf ([] : List Char) then (i : Int) else -1
  | l@(_ :: rest), i => if pat.isPrefixOf l then (i : Int) else jsIndexOfAux pat rest (i + 1)

def jsIndexOf (l pat : List Char) : Int := jsIndexOfAux pat l 0

/-- `e.lastIndexOf(sel, 0) === 0` (nel.js:792).  With `fromIndex = 0` the
search may only start at position 0, so the test holds exactly when `sel`
is a prefix of `e`. -/
def jsLastIndexOfAt0 (e sel : List Char) : Bool := sel.isPrefixOf e

/-- The character class `\s` of a Javascript regular expression
(`whitespaceRE`, nel.js:1057). -/
def jsWhitespace (c : Char) : Bool :=
  c = '\t' || c = '\n' || c.val = 11 || c.val = 12 || c = '\r' || c = ' ' ||
  c.val = 0xa0 || c.val = 0x1680 || (0x2000 ≤ c.val && c.val ≤ 0x200a) ||
  c.val = 0x2028 || c.val = 0x2029 || c.val = 0x202f || c.val = 0x205f ||
  c.val = 0x3000 || c.val = 0xfeff

/-! ## The two identifier regular expressions (nel.js:1064, 1071)

Both are anchored at the end of the string (`$`).  `exec` therefore
returns, for the leftmost starting position from which the pattern can
consume the rest of the string, the suffix beginning there together with
its index.  The embeddings below compute exactly that. -/

def dquote : Char := Char.ofNat 34

def squote : Char := Char.ofNat 39

/-- The class `[_$a-zA-Z]`. -/
def identStart (c : Char) : Bool := c = '_' || c = '$' || c.isAlpha

/-- The class `[_$a-zA-Z0-9]`. -/
def identRest (c : Char) : Bool := identStart c || c.isDigit

/-- Length of the longest prefix consisting of `identRest` characters. -/
def identRunLen : List Char → Nat
  | [] => 0
  | c :: rest => if identRest c then identRunLen rest + 1 else 0

/-- `exec` of `simpleIdentifierRE = /[_$a-zA-Z][_$a-zA-Z0-9]*$/`
(nel.js:1064): the leftmost index whose character starts an identifier
run extending to the end of the string. -/
def simpleIdentExecAux : List Char → Nat → Option (Nat × List Char)
  | [], _ => none
  | c :: rest, i =>
    if identStart c && rest.all identRest then some (i, c :: rest)
    else simpleIdentExecAux rest (i + 1)

/-- All remainders obtainable by letting `[_$a-zA-Z0-9]*` consume any
number of characters of its maximal run (backtracking). -/
def identDrops (rest : List Char) : List (List Char) :=
  (List.range (identRunLen rest + 1)).map (fun k => rest.drop k)

/-- Remainders after one `\[q.*q\]` bracket group (`q` the quote): the
greedy `.*` may stop at any position `p` such that `rest[p] = q`,
`rest[p+1] = ']'` and no newline was consumed (in a Javascript regex `.`
does not match a newline). -/
def bracketSplits (q : Char) (rest : List Char) : List (List Char) :=
  (List.range rest.length).filterMap (fun p =>
    if rest.get? p = some q ∧ rest.get? (p + 1) = some ']' ∧
       (rest.take p).all (fun c => c ≠ '\n')
    then some (rest.drop (p + 2)) else none)

/-- Remainders after consuming one iteration of the group
`(?:[_$a-zA-Z][_$a-zA-Z0-9]*|\.[_$a-zA-Z][_$a-zA-Z0-9]*|\[".*"\]|\['.*'\])`
of `complexIdentifierRE` (nel.js:1071).  Every remainder is strictly
shorter than the input, since each alternative consumes at least one
character. -/
def groupStep (l : List Char) : List (List Char) :=
  (match l with
   | c :: rest => if identStart c then identDrops rest else []
   | [] => []) ++
  (match l with
   | d :: c :: rest => if d = '.' && identStart c then identDrops rest else []
   | _ => []) ++
  (match l with
   | b :: q :: rest => if b = '[' && q = dquote then bracketSplits dquote rest else []
   | _ => []) ++
  (match l with
   | b :: q :: rest => if b = '[' && q = squote then bracketSplits squote rest else []
   | _ => [])

/-- Can zero or more group iterations consume exactly `l`?  Fuel-indexed
backtracking search; each group iteration consumes at least one
character, so fuel `l.length` is always sufficient. -/
def groupsReachFuel : Nat → List Char → Bool
  | _, [] => true
  | 0, _ :: _ => false
  | fuel + 1, l@(_ :: _) => (groupStep l).any (fun r => groupsReachFuel fuel r)

def groupsReach (l : List Char) : Bool := groupsReachFuel l.length l

/-- Does `complexIdentifierRE` match when starting exactly at the head of
`l` (and running to the end of the string)? -/
def complexMatchesFrom : List Char → Bool
  | [] => false
  | c :: rest => identStart c && (identDrops rest).any groupsReach

/-- `exec` of `complexIdentifierRE` (nel.js:1071): leftmost start
position from which the pattern reaches the end of the string. -/
def complexIdentExecAux : List Char → Nat → Option (Nat × List Char)
  | [], _ => none
  | l@(_ :: rest), i =>
    if complexMatchesFrom l then some (i, l) else complexIdentExecAux rest (i + 1)

/-! ## `parseExpression` (nel.js:1099-1175) -/

/-- The `Expression` record returned by `parseExpression`
(nel.js:1076-1086): exactly five string fields. -/
structure Expression where
  matchedText : String
  scope : String
  leftOp : String
  selector : String
  rightOp : String
deriving DecidableEq

/-- The scope-extraction tail of `parseExpression` (nel.js:1151-1174),
reached only after a left operator was recognised.  The `leftOp = ""`
branch mirrors the source's `else if (!leftOp)` (nel.js:1162); it is
unreachable because every path into this code sets `leftOp` to `"."`,
`"[\""` or `"['"`, all truthy. -/
def parseScope (codeL : List Char) (cursorPos : Int) (selector : List Char)
    (leftOp rightOp : String) (expression : List Char) : Option Expression :=
  match complexIdentExecAux expression 0 with
  | some (i, m) =>
    some ⟨String.mk (jsSliceChars codeL i cursorPos), String.mk m,
          leftOp, String.mk selector, rightOp⟩
  | none =>
    if leftOp = "" then
      some ⟨String.mk (jsSliceChars codeL (expression.length : Int) cursorPos), "",
            leftOp, String.mk selector, rightOp⟩
    else none

/-- `parseExpression(code, cursorPos)` (nel.js:1099-1175).  `none` models
the `null` "not implemented" result. -/
def parseExpression (code : String) (cursorPos : Int) : Option Expression :=
  let codeL := code.data
  let expression := jsSliceChars codeL 0 cursorPos
  -- `!expression || whitespaceRE.test(expression[expression.length - 1])`
  let emptyOrWs : Bool :=
    match expression.getLast? with
    | none => true
    | some c => jsWhitespace c
  if emptyOrWs then some ⟨"", "", "", "", ""⟩
  else
    let (selector, expression) :=
      match simpleIdentExecAux expression 0 with
      | none => (([] : List Char), expression)
      | some (i, m) => (m, expression.take i)
    -- `expression[expression.length - 1]` / `expression[expression.length - 2]`
    let lastC := expression.getLast?
    let last2C := expression.dropLast.getLast?
    if lastC = some '.' then
      parseScope codeL cursorPos selector "." "" expression.dropLast
    else if last2C = some '[' ∧ lastC = some dquote then
      parseScope codeL cursorPos selector (String.mk ['[', dquote]) (String.mk [dquote, ']'])
        expression.dropLast.dropLast
    else if last2C = some '[' ∧ lastC = some squote then
      parseScope codeL cursorPos selector (String.mk ['[', squote]) (String.mk [squote, ']'])
        expression.dropLast.dropLast
    else
      some ⟨String.mk (jsSliceChars codeL (expression.length : Int) cursorPos), "",
            "", String.mk selector, ""⟩

/-! ## Completion (`Session.prototype.complete`, nel.js:721-843) -/

/-- `javascriptKeywords` (nel.js:1034-1050). -/
def javascriptKeywords : List String :=
  ["break", "case", "catch", "continue", "debugger", "default",
   "delete", "do", "else", "finally", "for", "function", "if",
   "in", "instanceof", "new", "return", "switch", "this",
   "throw", "try", "typeof", "var", "void", "while", "with",
   "class", "const", "enum", "export", "extends", "import",
   "super",
   "implements", "interface", "let", "package", "private",
   "protected", "public", "static", "yield",
   "null",
   "true", "false"]

/-- The completion record delivered to `onSuccess` (nel.js:828-839);
`cursorStart` is an `Int` because `code.indexOf` can return `-1`. -/
structure CompletionResult where
  list : List String
  code : String
  cursorPos : Int
  matchedText : String
  cursorStart : Int
  cursorEnd : Int
deriving DecidableEq

/-- `matchList.reduce(function(p, c) { return p.length <= c.length ? p : c; })`
(nel.js:807-809); only invoked on a non-empty list in the source. -/
def shortestReduce : List String → String
  | [] => ""
  | x :: xs => xs.foldl (fun p c => if p.length ≤ c.length then p else c) x

/-- The cursor-advance loop of nel.js:815-819: starting at `cursorEnd`,
compare the shortest match character-by-character against `code`,
stopping at a mismatch, at the end of the match, or at the end of
`code`. -/
def cursorEndLoop (codeL : List Char) : List Char → Int → Int
  | [], ce => ce
  | c :: rest, ce =>
    if ce < (codeL.length : Int) then
      if jsCharAt codeL ce = some c then cursorEndLoop codeL rest (ce + 1) else ce
    else ce

/-- The `onSuccess` closure installed by `complete` (nel.js:780-840),
as a function of the name list the worker returned. -/
def completeOnSuccess (code : String) (cursorPos : Int) (expr : Expression)
    (names : List String) : CompletionResult :=
  let matchList := names
  let matchList :=
    if expr.scope = "" then matchList ++ javascriptKeywords else matchList
  let matchList :=
    if expr.selector ≠ "" then
      matchList.filter (fun e => jsLastIndexOfAt0 e.data expr.selector.data)
    else matchList
  let left := expr.scope ++ expr.leftOp
  let right := expr.rightOp
  let matchList :=
    if left ≠ "" ∨ right ≠ "" then
      matchList.map (fun e => left ++ e ++ right)
    else matchList
  let cursorStartEnd : Int × Int :=
    if 0 < matchList.length then
      let shortest := shortestReduce matchList
      let cs := jsIndexOf code.data expr.matchedText.data
      (cs, cursorEndLoop code.data shortest.data cs)
    else (cursorPos, cursorPos)
  { list := matchList, code := code, cursorPos := cursorPos,
    matchedText := expr.matchedText, cursorStart := cursorStartEnd.1,
    cursorEnd := cursorStartEnd.2 }

/-- `complete`'s worker-backed path (nel.js:757-843): parse the
expression; on success, the dispatched `getAllPropertyNames` task targets
`expression.scope` (or `"global"` when the scope is empty), and the
worker's name list is post-processed by `completeOnSuccess`.  `none`
models the `expression === null` path, which takes a different shape. -/
def completeRun (code : String) (cursorPos : Int) (names : List String) :
    Option (String × CompletionResult) :=
  match parseExpression code cursorPos with
  | none => none
  | some expr =>
    some ((if expr.scope = "" then "global" else expr.scope),
          completeOnSuccess code cursorPos expr names)

/-! ## The scheduler / router state machine
(`Session`, `_run`, `_runNow`, `_runLater`, `_onMessage`)

The session's mutable state (nel.js:117-191) is embedded as an explicit
record, and the two entry points — task submission via `_run`
(nel.js:597-609) and an inbound worker message via `_onMessage`
(nel.js:498-589) — as functions on it.  Tasks are compared by a unique
submission index `tid`, which models Javascript reference equality
(`task === this._currentTask`, nel.js:582): each call to
`execute`/`complete`/`inspect` constructs a fresh task object, so two
distinct tasks are never the same reference.

The transpile hook (`this.transpile`) is modelled by an opaque identity
token (`Option Nat`) in the session, while the behaviour of the hook on
a given task's code — returning transpiled code or throwing — is carried
in the task itself (`hookResult`); a trace fixes the hook's behaviour
the same way it fixes the worker's replies.

The record also carries ghost observation logs (`submitted`,
`dispatched`, `sent`, `calls`, `replied`, `endRouted`, `escapes`) that
record externally visible events; they are never read by the embedded
code paths. -/

inductive Action
  | run
  | getAllPropertyNames
  | inspect
deriving DecidableEq

/-- A Javascript value thrown by the transpile hook, abstracted to what
the catch block at nel.js:634-644 observes: its own truthiness, its
`typeof` tag, and its `name`/`message`/`stack` properties (`some s`
models a truthy property with value `s`; `none` models an absent or
falsy one). -/
structure Thrown where
  truthy : Bool
  typeTag : String
  name : Option String
  message : Option String
  stack : Option String
deriving DecidableEq

/-- What `this.transpile(code)` does for a particular task's code. -/
inductive HookResult
  | ok (code : String)
  | throwsVal (t : Thrown)
deriving DecidableEq

/-- A `Task` (nel.js:207-235): action, code, and which of the six
optional callbacks are present.  `tid` is the ghost submission index
standing in for the object's identity. -/
structure Task where
  tid : Nat
  action : Action
  code : String
  hookResult : HookResult
  hasOnSuccess : Bool
  hasOnError : Bool
  hasBeforeRun : Bool
  hasAfterRun : Bool
  hasOnStdout : Bool
  hasOnStderr : Bool
deriving DecidableEq

/-- The `traceback` value built at nel.js:641-642: either the stack split
into lines, or — when the thrown value has no truthy `stack` — the plain
string `""` (not an array). -/
inductive TracebackVal
  | lines (ls : List String)
  | emptyString
deriving DecidableEq

/-- The `error` payload `{ename, evalue, traceback}` (nel.js:386-390). -/
structure ErrInfo where
  ename : String
  evalue : String
  traceback : TracebackVal
deriving DecidableEq

/-- An inbound message as `_onMessage` probes it: each field is tested
for presence and/or truthiness.  `some ""` models a field that is
present but empty (falsy); `error` is tested with `hasOwnProperty`, so
only presence matters for it.  A non-`error` message that reaches the
error-or-success branch is routed to `onSuccess` whatever its payload,
so success payloads need no further structure here. -/
structure Msg where
  id : Option Nat
  endFlag : Bool
  log : Option String
  stdout : Option String
  stderr : Option String
  error : Option ErrInfo
deriving DecidableEq

/-- Javascript truthiness of an optional string field: present and
non-empty. -/
def truthyS : Option String → Bool
  | some s => s ≠ ""
  | none => false

/-- Ghost record of one message sent to the worker
(`this._server.send([action, code, contextId])`, nel.js:649-651). -/
structure SentMsg where
  tid : Nat
  action : Action
  code : String
  ctxId : Nat
deriving DecidableEq

/-- Ghost record of one callback invocation. -/
inductive CallEv
  | beforeRun (tid : Nat)
  | afterRun (tid : Nat)
  | onStdout (tid : Nat) (data : String)
  | onStderr (tid : Nat) (data : String)
  | onError (tid : Nat) (e : ErrInfo)
  | onSuccess (tid : Nat)
deriving DecidableEq

/-- The session state (nel.js:117-191) plus ghost observation logs. -/
structure SessionState where
  transpile : Option Nat
  tasks : List Task
  currentTask : Option Task
  contextTable : List (Nat × Task)
  lastContextId : Nat
  lastTask : Option Task
  killed : Bool
  cwd : Option String
  submitted : List Nat
  dispatched : List (Nat × Nat)
  sent : List SentMsg
  calls : List CallEv
  replied : List Nat
  endRouted : List Nat
  escapes : Nat
deriving DecidableEq

/-- `this._contextTable[contextId]`; an absent id (`undefined`) looks up
nothing. -/
def lookupCtx (tbl : List (Nat × Task)) (i : Option Nat) : Option Task :=
  match i with
  | none => none
  | some n => (tbl.find? (fun p => decide (p.1 = n))).map Prod.snd

/-- `delete this._contextTable[contextId]`; deleting an absent key (or
the key `undefined`) is a no-op. -/
def deleteCtx (tbl : List (Nat × Task)) (i : Option Nat) : List (Nat × Task) :=
  match i with
  | none => tbl
  | some n => tbl.filter (fun p => decide (p.1 ≠ n))

/-- `String.prototype.split("\n")` on a list of characters: split at
every newline; the empty string yields `[""]`. -/
def splitNl : List Char → List (List Char)
  | [] => [[]]
  | c :: rest =>
    match splitNl rest with
    | [] => [[]]
    | h :: t => if c = '\n' then [] :: h :: t else (c :: h) :: t

/-- `error.stack.split("\n")` (nel.js:642). -/
def jsSplitLines (s : String) : List String := (splitNl s.data).map String.mk

/-- The error object synthesised when the transpile hook throws
(nel.js:635-644).  The `evalue` line reads `util.inspect(error)` when the
thrown value has no truthy `message` — but `util` is never required in
nel.js, so that branch itself throws `ReferenceError: util is not
defined`, modelled by `Except.error ()`.  The properties are evaluated
in source order (`ename`, then `evalue`, then `traceback`). -/
def buildTranspileError (t : Thrown) : Except Unit ErrInfo :=
  let ename :=
    match (if t.truthy then t.name else none) with
    | some n => n
    | none => t.typeTag
  match (if t.truthy then t.message else none) with
  | none => Except.error ()
  | some m =>
    let tb :=
      match (if t.truthy then t.stack else none) with
      | some st => TracebackVal.lines (jsSplitLines st)
      | none => TracebackVal.emptyString
    Except.ok ⟨ename, m, tb⟩

/-- The two mutually recursive inner entry points, `_runNow` and
`_onMessage`. -/
inductive InnerCall
  | rn (t : Task)
  | om (m : Msg)

/-- The non-recursive prefix of `_runNow` (nel.js:618-626): install the
task as current, allocate the next context id, record the context-table
entry, and invoke `beforeRun` if present. -/
def dispatchPrefix (s : SessionState) (t : Task) : SessionState :=
  let s1 : SessionState :=
    { s with currentTask := some t,
             lastContextId := s.lastContextId + 1,
             lastTask := some t }
  let ctxId := s1.lastContextId
  let s2 : SessionState :=
    { s1 with contextTable := s1.contextTable ++ [(ctxId, t)],
              dispatched := s1.dispatched ++ [(ctxId, t.tid)] }
  if t.hasBeforeRun then { s2 with calls := s2.calls ++ [CallEv.beforeRun t.tid] } else s2

/-- `contextTable[id]` lookup falling back to `_lastTask`
(nel.js:515-528). -/
def resolveTask (s : SessionState) (i : Option Nat) : Option Task :=
  match lookupCtx s.contextTable i with
  | some t => some t
  | none => s.lastTask

/-- The error-or-success part of `_onMessage` (nel.js:550-578), for the
resolved `task`: record the routed reply, invoke `onError`/`onSuccess`,
and on a truthy end flag delete the context-table entry and invoke
`afterRun`. -/
def routeCore (s : SessionState) (task : Task) (m : Msg) : SessionState :=
  let s1 : SessionState := { s with replied := s.replied ++ [task.tid] }
  let s2 : SessionState :=
    match m.error with
    | some e =>
      if task.hasOnError then { s1 with calls := s1.calls ++ [CallEv.onError task.tid e] } else s1
    | none =>
      if task.hasOnSuccess then { s1 with calls := s1.calls ++ [CallEv.onSuccess task.tid] } else s1
  if m.endFlag then
    let present := (lookupCtx s2.contextTable m.id).isSome
    let s2' : SessionState :=
      { s2 with contextTable := deleteCtx s2.contextTable m.id,
                endRouted := if present then s2.endRouted ++ [m.id.getD 0] else s2.endRouted }
    if task.hasAfterRun then { s2' with calls := s2'.calls ++ [CallEv.afterRun task.tid] } else s2'
  else s2

/-- One fuel-indexed step of `_runNow` (`.rn`, nel.js:617-652) or
`_onMessage` (`.om`, nel.js:498-589).  The recursion (`_runNow` feeds a
synthetic error message to `_onMessage` when the hook throws;
`_onMessage` dispatches the next queued task) consumes one fuel per
frame; each `_onMessage → _runNow` call pops the queue, so the depth is
bounded by twice the queue length plus two, and the wrappers below
always supply enough fuel.  When the hook throws a value without a
truthy `message`, building the synthetic error itself raises
`ReferenceError: util is not defined` (see `buildTranspileError`), which
escapes every frame — recorded by incrementing the ghost `escapes`
counter and skipping all remaining work, including the send. -/
def stepF : Nat → SessionState → InnerCall → SessionState
  | 0, s, _ => s
  | fuel + 1, s, InnerCall.rn t =>
    -- Session.prototype._runNow (nel.js:617-652)
    let s3 := dispatchPrefix s t
    let ctxId := s.lastContextId + 1
    if s3.transpile.isSome ∧ t.action = Action.run then
      match t.hookResult with
      | HookResult.ok code2 =>
        -- `this._lastTask.code = transpiledCode` mutates the shared task
        -- object's code field; the new code is observed only in the send.
        { s3 with sent := s3.sent ++ [⟨t.tid, t.action, code2, ctxId⟩] }
      | HookResult.throwsVal th =>
        match buildTranspileError th with
        | Except.ok e =>
          stepF fuel s3 (InnerCall.om
            { id := none, endFlag := false, log := none,
              stdout := none, stderr := none, error := some e })
        | Except.error _ =>
          { s3 with escapes := s3.escapes + 1 }
    else
      { s3 with sent := s3.sent ++ [⟨t.tid, t.action, t.code, ctxId⟩] }
  | fuel + 1, s, InnerCall.om m =>
    -- Session.prototype._onMessage (nel.js:498-589)
    if truthyS m.log then s
    else
      match resolveTask s m.id with
      | none => s
      | some task =>
        if truthyS m.stdout then
          if task.hasOnStdout then
            { s with calls := s.calls ++ [CallEv.onStdout task.tid (m.stdout.getD "")] }
          else s
        else if truthyS m.stderr then
          if task.hasOnStderr then
            { s with calls := s.calls ++ [CallEv.onStderr task.tid (m.stderr.getD "")] }
          else s
        else
          let s3 := routeCore s task m
          if s3.currentTask.map Task.tid = some task.tid then
            let s4 : SessionState := { s3 with currentTask := none }
            match s4.tasks with
            | [] => s4
            | t2 :: rest => stepF fuel { s4 with tasks := rest } (InnerCall.rn t2)
          else s3

/-- `_runNow` with sufficient fuel. -/
def runNowS (s : SessionState) (t : Task) : SessionState :=
  stepF (2 * s.tasks.length + 2) s (InnerCall.rn t)

/-- `_onMessage` with sufficient fuel. -/
def onMessageS (s : SessionState) (m : Msg) : SessionState :=
  stepF (2 * s.tasks.length + 2) s (InnerCall.om m)

/-- External events driving a session: a task submission (an
`execute`/`complete`/`inspect` call reaching `_run`, with the task's
callback-presence flags and hook behaviour), an inbound worker message,
and `kill`. -/
inductive Ev
  | submit (action : Action) (code : String) (hookResult : HookResult)
      (hasOnSuccess hasOnError hasBeforeRun hasAfterRun hasOnStdout hasOnStderr : Bool)
  | recv (m : Msg)
  | kill

/-- Apply one external event.  `submit` embeds `_run` (nel.js:597-609):
dropped when killed, dispatched immediately when no task is current,
queued otherwise (`_runLater`, nel.js:660-662).  The fresh task's `tid`
is the number of previously accepted submissions. -/
def applyEv (s : SessionState) (e : Ev) : SessionState :=
  match e with
  | Ev.submit a c hr b1 b2 b3 b4 b5 b6 =>
    if s.killed then s
    else
      let t : Task := ⟨s.submitted.length, a, c, hr, b1, b2, b3, b4, b5, b6⟩
      let s' : SessionState := { s with submitted := s.submitted ++ [t.tid] }
      match s'.currentTask with
      | none => runNowS s' t
      | some _ => { s' with tasks := s'.tasks ++ [t] }
  | Ev.recv m => onMessageS s m
  | Ev.kill => { s with killed := true }

/-- The session configuration argument (nel.js:83-95): working directory
and optional transpile hook (the hook identified by an opaque token). -/
structure NelConfig where
  cwd : Option String
  transpile : Option Nat
deriving DecidableEq

/-- The `Session` constructor (nel.js:117-191): reads
`nelConfig.transpile` and `nelConfig.cwd`, initialises the queue, the
current task, the context table, the id counter and the killed flag, and
stores `this._config = {cwd: nelConfig.cwd, stdio: ...}` — an object
that has no `transpile` property. -/
def mkSession (cfg : NelConfig) : SessionState :=
  { transpile := cfg.transpile, tasks := [], currentTask := none,
    contextTable := [], lastContextId := 0, lastTask := none,
    killed := false, cwd := cfg.cwd,
    submitted := [], dispatched := [], sent := [], calls := [],
    replied := [], endRouted := [], escapes := 0 }

/-- Run a session from construction through a list of events. -/
def runTrace (cfg : NelConfig) (evs : List Ev) : SessionState :=
  evs.foldl applyEv (mkSession cfg)

/-- The stored `this._config` viewed as a `nelConfig` argument, as
`restart` reuses it (nel.js:1022): its `cwd` field is the session's, and
reading its absent `transpile` property yields `undefined`. -/
def configAsNelConfig (s : SessionState) : NelConfig :=
  { cwd := s.cwd, transpile := none }

/-- `Session.prototype.restart` (nel.js:1020-1027): kill the old
session, then `Session.call(this, this._config)` re-initialises the
state from the stored config, and `restartCB(code, signal)` forwards the
kill callback's arguments unchanged. -/
def restartSession (s : SessionState) (exitCode : Option Int) (exitSignal : Option String) :
    SessionState × (Option Int × Option String) :=
  (mkSession (configAsNelConfig s), (exitCode, exitSignal))

/-! ## The scheduler invariants

`InvCore` collects the state invariants that hold in every reachable
session state; `Inv` adds the queue/submission bookkeeping.  Components:

* `ctxLen`/`ids`: context ids are allocated as `1, 2, …, n` in dispatch
  order;
* `subRange`: submission indices are `0, 1, …` in order (task identity);
* `sentSub`: the worker receives an order-preserving subsequence of the
  dispatched tasks (tasks whose transpile hook threw are skipped);
* `oneInflight`: every task sent to the worker and not yet routed an
  error-or-success reply is the current task — so at most one is
  outstanding;
* `table`: the context table holds exactly the dispatched contexts whose
  end-flagged terminating message has not been routed;
* `endBound`: only allocated ids are ever removed from the table;
* `repliedDisp`, `lastDisp`, `curDisp`: replies, the fallback task and
  the current task refer only to dispatched tasks. -/
structure InvCore (s : SessionState) : Prop where
  ctxLen : s.lastContextId = s.dispatched.length
  ids : s.dispatched.map Prod.fst = List.range' 1 s.dispatched.length
  subRange : s.submitted = List.range s.submitted.length
  sentSub : (s.sent.map SentMsg.tid).Sublist (s.dispatched.map Prod.snd)
  oneInflight : ∀ x ∈ s.sent, x.tid ∈ s.replied ∨ s.currentTask.map Task.tid = some x.tid
  table : s.contextTable.map (fun p => (p.1, p.2.tid)) =
    s.dispatched.filter (fun p => decide (p.1 ∉ s.endRouted))
  endBound : ∀ n ∈ s.endRouted, n ≤ s.lastContextId
  repliedDisp : ∀ i ∈ s.replied, i ∈ s.dispatched.map Prod.snd
  lastDisp : ∀ t, s.lastTask = some t → t.tid ∈ s.dispatched.map Prod.snd
  curDisp : ∀ t, s.currentTask = some t → t.tid ∈ s.dispatched.map Prod.snd

/-- The full reachable-state invariant: the core invariants, plus: the
submission order is exactly the dispatch order followed by the pending
queue, and the pending queue is empty whenever no task is current. -/
structure Inv (s : SessionState) : Prop where
  core : InvCore s
  queue : s.submitted = s.dispatched.map Prod.snd ++ s.tasks.map Task.tid
  curNone : s.currentTask = none → s.tasks = []

/-! ### Projection lemmas for the step helpers -/

theorem routeCore_proj (s : SessionState) (task : Task) (m : Msg) :
    (routeCore s task m).tasks = s.tasks ∧
    (routeCore s task m).currentTask = s.currentTask ∧
    (routeCore s task m).dispatched = s.dispatched ∧
    (routeCore s task m).sent = s.sent ∧
    (routeCore s task m).submitted = s.submitted ∧
    (routeCore s task m).lastContextId = s.lastContextId ∧
    (routeCore s task m).lastTask = s.lastTask ∧
    (routeCore s task m).killed = s.killed ∧
    (routeCore s task m).transpile = s.transpile := by
  unfold routeCore
  cases m.error <;> dsimp only <;> split_ifs <;> simp

theorem routeCore_replied (s : SessionState) (task : Task) (m : Msg) :
    (routeCore s task m).replied = s.replied ++ [task.tid] := by
  unfold routeCore
  cases m.error <;> dsimp only <;> split_ifs <;> simp

theorem routeCore_table (s : SessionState) (task : Task) (m : Msg) :
    (routeCore s task m).contextTable =
      if m.endFlag then deleteCtx s.contextTable m.id else s.contextTable := by
  unfold routeCore
  cases m.error <;> dsimp only <;> split_ifs <;> simp_all

theorem routeCore_endRouted (s : SessionState) (task : Task) (m : Msg) :
    (routeCore s task m).endRouted =
      if m.endFlag ∧ (lookupCtx s.contextTable m.id).isSome
      then s.endRouted ++ [m.id.getD 0] else s.endRouted := by
  unfold routeCore
  cases m.error <;> dsimp only <;> split_ifs <;> simp_all

/-- Projecting each table entry to `(id, tid)` commutes with deleting a
key, because the projection preserves the key. -/
theorem map_filterKey (tbl : List (Nat × Task)) (n : Nat) :
    (tbl.filter (fun p => decide (p.1 ≠ n))).map (fun p => (p.1, p.2.tid)) =
      (tbl.map (fun p => (p.1, p.2.tid))).filter (fun q => decide (q.1 ≠ n)) := by
  induction tbl with
  | nil => rfl
  | cons hd tl ih =>
    by_cases h : hd.1 = n
    · simpa [h] using ih
    · simpa [h] using congrArg (List.cons (hd.1, hd.2.tid)) ih

/-- Effect of `delete this._contextTable[contextId]` on the projected
table, given the table invariant: the deleted id joins `endRouted`
exactly when the lookup found it. -/
theorem tableFilter_delete (tbl : List (Nat × Task)) (disp : List (Nat × Nat))
    (er : List Nat) (i : Option Nat)
    (h : tbl.map (fun p => (p.1, p.2.tid)) = disp.filter (fun p => decide (p.1 ∉ er))) :
    (deleteCtx tbl i).map (fun p => (p.1, p.2.tid)) =
      disp.filter (fun p =>
        decide (p.1 ∉ (if (lookupCtx tbl i).isSome then er ++ [i.getD 0] else er))) := by
  cases i with
  | none => simpa [deleteCtx, lookupCtx] using h
  | some n =>
    by_cases hp : (lookupCtx tbl (some n)).isSome
    · simp only [hp, if_true, deleteCtx, Option.getD_some]
      rw [map_filterKey, h, List.filter_filter]
      refine List.filter_congr (fun x _ => ?_)
      by_cases h1 : x.1 ∈ er <;> by_cases h2 : x.1 = n <;>
        simp [h1, h2, List.mem_append]
    · have hnone : tbl.find? (fun p => decide (p.1 = n)) = none := by
        simp only [lookupCtx, Option.isSome_map'] at hp
        exact Option.not_isSome_iff_eq_none.mp hp
      have hall : ∀ p ∈ tbl, p.1 ≠ n := by
        intro p hmem
        have := List.find?_eq_none.mp hnone p hmem
        simpa using this
      have : deleteCtx tbl (some n) = tbl := by
        simp only [deleteCtx]
        exact List.filter_eq_self.mpr (fun p hmem => by simpa using hall p hmem)
      rw [this, h]
      simp [hp]

/-- A present key is one of the dispatched context ids (via the table
invariant). -/
theorem lookup_present_mem (tbl : List (Nat × Task)) (disp : List (Nat × Nat))
    (er : List Nat) (n : Nat)
    (h : tbl.map (fun p => (p.1, p.2.tid)) = disp.filter (fun p => decide (p.1 ∉ er)))
    (hp : (lookupCtx tbl (some n)).isSome) : n ∈ disp.map Prod.fst := by
  simp only [lookupCtx, Option.isSome_map'] at hp
  obtain ⟨p, hfind⟩ := Option.isSome_iff_exists.mp hp
  have hmem := List.mem_of_find?_eq_some hfind
  have hkey : p.1 = n := by simpa using List.find?_some hfind
  have : (p.1, p.2.tid) ∈ tbl.map (fun p => (p.1, p.2.tid)) := List.mem_map_of_mem _ hmem
  rw [h] at this
  have := List.mem_of_mem_filter this
  rw [← hkey]
  exact List.mem_map_of_mem Prod.fst this

/-- A task resolved from the table was dispatched. -/
theorem lookup_some_tid_mem (tbl : List (Nat × Task)) (disp : List (Nat × Nat))
    (er : List Nat) (i : Option Nat) (task : Task)
    (h : tbl.map (fun p => (p.1, p.2.tid)) = disp.filter (fun p => decide (p.1 ∉ er)))
    (hl : lookupCtx tbl i = some task) : task.tid ∈ disp.map Prod.snd := by
  cases i with
  | none => simp [lookupCtx] at hl
  | some n =>
    simp only [lookupCtx] at hl
    obtain ⟨p, hfind, hsnd⟩ := Option.map_eq_some'.mp hl
    have hmem := List.mem_of_find?_eq_some hfind
    have : (p.1, p.2.tid) ∈ tbl.map (fun p => (p.1, p.2.tid)) := List.mem_map_of_mem _ hmem
    rw [h] at this
    have hd := List.mem_of_mem_filter this
    rw [← hsnd]
    exact List.mem_map_of_mem Prod.snd hd

/-- Lists with no duplicates all of whose elements are equal have at most
one element. -/
theorem length_le_one_of_nodup_all_eq (l : List Nat) (k : Nat)
    (hnd : l.Nodup) (hall : ∀ a ∈ l, a = k) : l.length ≤ 1 := by
  match l with
  | [] => simp
  | [a] => simp
  | a :: b :: rest =>
    exfalso
    have ha := hall a (by simp)
    have hb := hall b (by simp)
    simp [ha, hb] at hnd

theorem dispatchPrefix_proj (s : SessionState) (t : Task) :
    (dispatchPrefix s t).tasks = s.tasks ∧
    (dispatchPrefix s t).currentTask = some t ∧
    (dispatchPrefix s t).lastContextId = s.lastContextId + 1 ∧
    (dispatchPrefix s t).lastTask = some t ∧
    (dispatchPrefix s t).contextTable = s.contextTable ++ [(s.lastContextId + 1, t)] ∧
    (dispatchPrefix s t).dispatched = s.dispatched ++ [(s.lastContextId + 1, t.tid)] ∧
    (dispatchPrefix s t).sent = s.sent ∧
    (dispatchPrefix s t).submitted = s.submitted ∧
    (dispatchPrefix s t).replied = s.replied ∧
    (dispatchPrefix s t).endRouted = s.endRouted ∧
    (dispatchPrefix s t).killed = s.killed ∧
    (dispatchPrefix s t).transpile = s.transpile := by
  unfold dispatchPrefix
  dsimp only
  split <;> simp

/-! ### Invariant preservation -/

/-- The invariant ignores the `calls` ghost log. -/
theorem Inv_calls (s : SessionState) (h : Inv s) (cs : List CallEv) :
    Inv { s with calls := cs } :=
  ⟨⟨h.core.ctxLen, h.core.ids, h.core.subRange, h.core.sentSub, h.core.oneInflight,
    h.core.table, h.core.endBound, h.core.repliedDisp, h.core.lastDisp, h.core.curDisp⟩,
   h.queue, h.curNone⟩

/-- The invariant ignores the `escapes` ghost counter. -/
theorem Inv_escapes (s : SessionState) (h : Inv s) (n : Nat) :
    Inv { s with escapes := n } :=
  ⟨⟨h.core.ctxLen, h.core.ids, h.core.subRange, h.core.sentSub, h.core.oneInflight,
    h.core.table, h.core.endBound, h.core.repliedDisp, h.core.lastDisp, h.core.curDisp⟩,
   h.queue, h.curNone⟩

/-- The state after `dispatchPrefix` satisfies the full invariant, given
that no task was current and the dispatched task is the next submitted
one. -/
theorem inv_dispatchPrefix (s : SessionState) (t : Task)
    (hcore : InvCore s) (hcur : s.currentTask = none)
    (hsub : s.submitted = s.dispatched.map Prod.snd ++ t.tid :: s.tasks.map Task.tid) :
    Inv (dispatchPrefix s t) := by
  obtain ⟨htasks, hcurT, hctx, hlast, htbl, hdisp, hsent, hsubm, hrepl, hend, hkill, htrans⟩ :=
    dispatchPrefix_proj s t
  have hfresh : s.lastContextId + 1 ∉ s.endRouted := by
    intro hmem
    have := hcore.endBound _ hmem
    omega
  constructor
  · constructor
    · rw [hctx, hdisp, hcore.ctxLen]; simp
    · rw [hdisp]
      simp only [List.map_append, List.map_cons, List.map_nil, List.length_append,
        List.length_cons, List.length_nil, hcore.ids, hcore.ctxLen]
      rw [List.range'_concat]
      simp [Nat.add_comm]
    · rw [hsubm]; exact hcore.subRange
    · rw [hsent, hdisp]
      refine hcore.sentSub.trans ?_
      simp only [List.map_append, List.map_cons, List.map_nil]
      exact List.sublist_append_left (s.dispatched.map Prod.snd) [t.tid]
    · intro x hx
      rw [hsent] at hx
      rw [hrepl]
      rcases hcore.oneInflight x hx with h1 | h2
      · exact Or.inl h1
      · rw [hcur] at h2; simp at h2
    · rw [htbl, hdisp, hend]
      simp only [List.map_append, List.map_cons, List.map_nil, List.filter_append]
      rw [hcore.table]
      congr 1
      simp [hfresh]
    · rw [hend, hctx]
      intro n hn
      have := hcore.endBound n hn
      omega
    · rw [hrepl, hdisp]
      intro i hi
      have := hcore.repliedDisp i hi
      simp only [List.map_append, List.map_cons, List.map_nil]
      exact List.mem_append_left _ this
    · rw [hlast, hdisp]
      intro u hu
      injection hu with hu
      subst hu
      simp
    · rw [hcurT, hdisp]
      intro u hu
      injection hu with hu
      subst hu
      simp
  · rw [hsubm, hdisp, htasks, hsub]
    simp
  · rw [hcurT, htasks]
    intro h
    exact absurd h (by simp)

/-- Appending a sent message for the current, just-dispatched task
preserves the invariant. -/
theorem Inv_sent_append (s : SessionState) (t : Task) (x : SentMsg)
    (h : Inv (dispatchPrefix s t)) (hcore : InvCore s) (hcur : s.currentTask = none)
    (htid : x.tid = t.tid) :
    Inv { dispatchPrefix s t with sent := (dispatchPrefix s t).sent ++ [x] } := by
  obtain ⟨htasks, hcurT, hctx, hlast, htbl, hdisp, hsent, hsubm, hrepl, hend, hkill, htrans⟩ :=
    dispatchPrefix_proj s t
  refine ⟨⟨h.core.ctxLen, h.core.ids, h.core.subRange, ?_, ?_,
    h.core.table, h.core.endBound, h.core.repliedDisp, h.core.lastDisp, h.core.curDisp⟩,
    h.queue, h.curNone⟩
  · show ((dispatchPrefix s t).sent ++ [x]).map SentMsg.tid
      |>.Sublist ((dispatchPrefix s t).dispatched.map Prod.snd)
    rw [hsent, hdisp]
    simp only [List.map_append, List.map_cons, List.map_nil, htid]
    exact List.Sublist.append hcore.sentSub (List.Sublist.refl _)
  · intro y hy
    show y.tid ∈ (dispatchPrefix s t).replied ∨
      (dispatchPrefix s t).currentTask.map Task.tid = some y.tid
    simp only [List.mem_append, List.mem_singleton] at hy
    rcases hy with hy | hy
    · rw [hsent] at hy
      rcases hcore.oneInflight y hy with h1 | h2
      · rw [hrepl]; exact Or.inl h1
      · rw [hcur] at h2; simp at h2
    · subst hy
      rw [hcurT, htid]
      exact Or.inr rfl

/-- `routeCore` preserves the invariant, provided the routed task was
dispatched. -/
theorem Inv_routeCore (s : SessionState) (task : Task) (m : Msg)
    (h : Inv s) (htid : task.tid ∈ s.dispatched.map Prod.snd) :
    Inv (routeCore s task m) := by
  obtain ⟨htasks, hcur, hdisp, hsent, hsubm, hctx, hlast, hkill, htrans⟩ :=
    routeCore_proj s task m
  have hrepl := routeCore_replied s task m
  have htbl := routeCore_table s task m
  have her := routeCore_endRouted s task m
  constructor
  · constructor
    · rw [hctx, hdisp]; exact h.core.ctxLen
    · rw [hdisp]; exact h.core.ids
    · rw [hsubm]; exact h.core.subRange
    · rw [hsent, hdisp]; exact h.core.sentSub
    · intro x hx
      rw [hsent] at hx
      rw [hrepl, hcur]
      rcases h.core.oneInflight x hx with h1 | h2
      · exact Or.inl (List.mem_append_left _ h1)
      · exact Or.inr h2
    · rw [htbl, hdisp, her]
      by_cases he : m.endFlag
      · simp only [he, if_true, true_and]
        exact tableFilter_delete s.contextTable s.dispatched s.endRouted m.id h.core.table
      · simp only [he, if_false, false_and]
        exact h.core.table
    · rw [her, hctx]
      by_cases he : m.endFlag ∧ (lookupCtx s.contextTable m.id).isSome
      · simp only [he, if_true]
        intro n hn
        rcases List.mem_append.mp hn with hn | hn
        · exact h.core.endBound n hn
        · rw [List.mem_singleton] at hn
          subst hn
          cases hi : m.id with
          | none => rw [hi] at he; simp [lookupCtx] at he
          | some k =>
            rw [hi] at he
            have hk := lookup_present_mem s.contextTable s.dispatched s.endRouted k
              h.core.table he.2
            rw [h.core.ids] at hk
            rw [h.core.ctxLen]
            have := List.mem_range'_1.mp hk
            simp
            omega
      · simp only [he, if_false]
        exact h.core.endBound
    · rw [hrepl, hdisp]
      intro i hi
      rcases List.mem_append.mp hi with hi | hi
      · exact h.core.repliedDisp i hi
      · rw [List.mem_singleton] at hi
        subst hi
        exact htid
    · rw [hlast, hdisp]; exact h.core.lastDisp
    · rw [hcur, hdisp]; exact h.core.curDisp
  · rw [hsubm, hdisp, htasks]; exact h.queue
  · rw [hcur, htasks]; exact h.curNone

/-- A task resolved by the router (table lookup with `lastTask`
fallback) is always a dispatched task. -/
theorem resolve_tid_mem (s : SessionState) (i : Option Nat) (task : Task)
    (hcore : InvCore s) (hres : resolveTask s i = some task) :
    task.tid ∈ s.dispatched.map Prod.snd := by
  unfold resolveTask at hres
  cases hl : lookupCtx s.contextTable i with
  | some u =>
    rw [hl] at hres
    injection hres with hres
    have := lookup_some_tid_mem s.contextTable s.dispatched s.endRouted i u hcore.table hl
    rwa [hres] at this
  | none =>
    rw [hl] at hres
    exact hcore.lastDisp task hres

/-- The key preservation theorem: `_runNow` (given a free in-flight slot
and the task at the head of the submission order) and `_onMessage`
preserve the invariant, for any sufficient fuel. -/
theorem stepF_inv : ∀ fuel : Nat,
    (∀ s t, 2 * s.tasks.length + 2 ≤ fuel → InvCore s → s.currentTask = none →
      s.submitted = s.dispatched.map Prod.snd ++ t.tid :: s.tasks.map Task.tid →
      Inv (stepF fuel s (InnerCall.rn t))) ∧
    (∀ s m, 2 * s.tasks.length + 1 ≤ fuel → Inv s →
      Inv (stepF fuel s (InnerCall.om m))) := by
  intro fuel
  induction fuel with
  | zero =>
    exact ⟨fun s t h => absurd h (by omega), fun s m h => absurd h (by omega)⟩
  | succ fuel ih =>
    obtain ⟨ihRn, ihOm⟩ := ih
    constructor
    · intro s t hfuel hcore hcur hsub
      have hInv3 : Inv (dispatchPrefix s t) := inv_dispatchPrefix s t hcore hcur hsub
      obtain ⟨htasks, hcurT, hctx, hlast, htbl, hdisp, hsent, hsubm, hrepl, hend, hkill,
        htrans⟩ := dispatchPrefix_proj s t
      simp only [stepF]
      split
      · cases t.hookResult with
        | ok code2 =>
          dsimp only
          exact Inv_sent_append s t _ hInv3 hcore hcur rfl
        | throwsVal th =>
          dsimp only
          cases buildTranspileError th with
          | ok e =>
            dsimp only
            refine ihOm (dispatchPrefix s t) _ ?_ hInv3
            rw [htasks]
            omega
          | error u =>
            dsimp only
            exact Inv_escapes _ hInv3 _
      · exact Inv_sent_append s t _ hInv3 hcore hcur rfl
    · intro s m hfuel hInv
      simp only [stepF]
      split
      · exact hInv
      · -- resolve the owning task
        cases hres : resolveTask s m.id with
        | none => exact hInv
        | some task =>
          dsimp only
          have htid : task.tid ∈ s.dispatched.map Prod.snd :=
            resolve_tid_mem s m.id task hInv.core hres
          split
          · -- stdout branch
            split
            · exact Inv_calls s hInv _
            · exact hInv
          · split
            · -- stderr branch
              split
              · exact Inv_calls s hInv _
              · exact hInv
            · -- error-or-success branch
              have hroute : Inv (routeCore s task m) := Inv_routeCore s task m hInv htid
              obtain ⟨htasks, hcur, hdisp, hsent, hsubm, hctx, hlast, hkill, htrans⟩ :=
                routeCore_proj s task m
              have hrepl := routeCore_replied s task m
              split
              · -- the routed task is the current one: clear the slot, advance
                next hadv =>
                have hallrepl : ∀ x ∈ (routeCore s task m).sent,
                    x.tid ∈ (routeCore s task m).replied := by
                  intro x hx
                  rcases hroute.core.oneInflight x hx with h1 | h2
                  · exact h1
                  · rw [hadv] at h2
                    injection h2 with h2
                    rw [hrepl, ← h2]
                    simp
                have hq : ({ routeCore s task m with currentTask := none } :
                    SessionState).tasks = s.tasks := htasks
                rw [hq]
                rcases htq : s.tasks with _ | ⟨t2, rest⟩
                · -- empty queue: just clear the slot
                  dsimp only
                  refine ⟨⟨hroute.core.ctxLen, hroute.core.ids, hroute.core.subRange,
                    hroute.core.sentSub,
                    fun x hx => Or.inl (hallrepl x hx),
                    hroute.core.table, hroute.core.endBound, hroute.core.repliedDisp,
                    hroute.core.lastDisp,
                    fun u hu => absurd hu (by simp)⟩, ?_, fun _ => rfl⟩
                  show (routeCore s task m).submitted =
                    (routeCore s task m).dispatched.map Prod.snd ++ List.map Task.tid []
                  rw [hsubm, hdisp, hInv.queue, htq]
                · -- dispatch the head of the queue
                  dsimp only
                  refine ihRn _ t2 ?_ ?_ rfl ?_
                  · show 2 * rest.length + 2 ≤ fuel
                    rw [htq] at hfuel
                    simp only [List.length_cons] at hfuel
                    omega
                  · exact ⟨hroute.core.ctxLen, hroute.core.ids, hroute.core.subRange,
                      hroute.core.sentSub,
                      fun x hx => Or.inl (hallrepl x hx),
                      hroute.core.table, hroute.core.endBound, hroute.core.repliedDisp,
                      hroute.core.lastDisp,
                      fun u hu => absurd hu (by simp)⟩
                  · show (routeCore s task m).submitted =
                      (routeCore s task m).dispatched.map Prod.snd ++
                        t2.tid :: rest.map Task.tid
                    rw [hsubm, hdisp, hInv.queue, htq]
                    simp
              · exact hroute

/-- The invariant holds at construction. -/
theorem mkSession_inv (cfg : NelConfig) : Inv (mkSession cfg) := by
  refine ⟨⟨rfl, rfl, rfl, ?_, ?_, rfl, ?_, ?_, ?_, ?_⟩, rfl, fun _ => rfl⟩
  · exact List.Sublist.refl _
  · intro x hx; exact absurd hx (by simp [mkSession])
  · intro n hn; exact absurd hn (by simp [mkSession])
  · intro i hi; exact absurd hi (by simp [mkSession])
  · intro u hu; exact Option.noConfusion hu
  · intro u hu; exact Option.noConfusion hu

/-- Every external event preserves the invariant. -/
theorem applyEv_inv (s : SessionState) (e : Ev) (h : Inv s) : Inv (applyEv s e) := by
  cases e with
  | submit a c hr b1 b2 b3 b4 b5 b6 =>
    simp only [applyEv]
    split
    · exact h
    · have hsub' : (s.submitted ++ [s.submitted.length]) =
          List.range (s.submitted.length + 1) := by
        rw [List.range_succ, ← h.core.subRange]
      cases hc : s.currentTask with
      | none =>
        dsimp only
        have htasks : s.tasks = [] := h.curNone hc
        unfold runNowS
        refine (stepF_inv _).1 _ _ (le_refl _) ?_ rfl ?_
        · refine ⟨h.core.ctxLen, h.core.ids, by simpa using hsub', h.core.sentSub,
            ?_, h.core.table, h.core.endBound, h.core.repliedDisp,
            h.core.lastDisp, ?_⟩
          · intro x hx
            rcases h.core.oneInflight x hx with h1 | h2
            · exact Or.inl h1
            · rw [hc] at h2; simp at h2
          · intro u hu
            exact absurd hu (by simp)
        · show s.submitted ++ [s.submitted.length] =
            s.dispatched.map Prod.snd ++ s.submitted.length :: s.tasks.map Task.tid
          rw [h.queue, htasks]
          simp
      | some c0 =>
        dsimp only
        refine ⟨⟨h.core.ctxLen, h.core.ids, by simpa using hsub', h.core.sentSub,
          ?_, h.core.table, h.core.endBound, h.core.repliedDisp,
          h.core.lastDisp, ?_⟩, ?_, ?_⟩
        · intro x hx
          rcases h.core.oneInflight x hx with h1 | h2
          · exact Or.inl h1
          · rw [hc] at h2
            exact Or.inr h2
        · intro u hu
          have hu' : some c0 = some u := hu
          injection hu' with hu'
          subst hu'
          exact h.core.curDisp c0 hc
        · show s.submitted ++ [s.submitted.length] =
            s.dispatched.map Prod.snd ++
              (s.tasks ++
                [(⟨s.submitted.length, a, c, hr, b1, b2, b3, b4, b5, b6⟩ : Task)]).map Task.tid
          rw [h.queue]
          simp
        · intro hn
          exact absurd (show some c0 = none from hn) (by simp)
  | recv m =>
    unfold applyEv onMessageS
    exact (stepF_inv _).2 _ _ (by omega) h
  | kill =>
    exact ⟨⟨h.core.ctxLen, h.core.ids, h.core.subRange, h.core.sentSub,
      h.core.oneInflight, h.core.table, h.core.endBound, h.core.repliedDisp,
      h.core.lastDisp, h.core.curDisp⟩, h.queue, h.curNone⟩

/-- Every state reachable from the constructed session satisfies the
invariant. -/
theorem runTrace_inv (cfg : NelConfig) (evs : List Ev) : Inv (runTrace cfg evs) := by
  suffices h : ∀ s, Inv s → Inv (evs.foldl applyEv s) from h _ (mkSession_inv cfg)
  induction evs with
  | nil => exact fun s hs => hs
  | cons e rest ih =>
    intro s hs
    exact ih _ (applyEv_inv s e hs)

/-! ### Structure of the callback log -/

/-- Is a recorded callback invocation an `onStdout` call? -/
def isStdoutCall : CallEv → Bool
  | CallEv.onStdout _ _ => true
  | _ => false

/-- Number of `onStdout` invocations recorded in a callback log. -/
def countStdout (cs : List CallEv) : Nat := cs.countP isStdoutCall

/-- The callback invocations `routeCore` appends: the `onError` or
`onSuccess` call, then `afterRun` when the end flag is set. -/
def routeCalls (task : Task) (m : Msg) : List CallEv :=
  (match m.error with
   | some e => if task.hasOnError then [CallEv.onError task.tid e] else []
   | none => if task.hasOnSuccess then [CallEv.onSuccess task.tid] else []) ++
  (if m.endFlag ∧ task.hasAfterRun then [CallEv.afterRun task.tid] else [])

theorem routeCore_calls (s : SessionState) (task : Task) (m : Msg) :
    (routeCore s task m).calls = s.calls ++ routeCalls task m := by
  unfold routeCore routeCalls
  cases m.error <;> dsimp only <;> split_ifs <;> simp_all

theorem routeCalls_no_stdout (task : Task) (m : Msg) :
    (routeCalls task m).countP isStdoutCall = 0 := by
  unfold routeCalls
  cases m.error <;> dsimp only <;> split_ifs <;> simp [isStdoutCall]

theorem dispatchPrefix_calls (s : SessionState) (t : Task) :
    (dispatchPrefix s t).calls =
      s.calls ++ (if t.hasBeforeRun then [CallEv.beforeRun t.tid] else []) := by
  unfold dispatchPrefix
  dsimp only
  split <;> simp

/-- The callback log only grows, and neither a dispatch nor a message
without a truthy `stdout` payload ever appends an `onStdout`
invocation. -/
theorem stepF_calls : ∀ (fuel : Nat) (s : SessionState) (c : InnerCall),
    ∃ suf, (stepF fuel s c).calls = s.calls ++ suf ∧
      ((match c with
        | InnerCall.rn _ => True
        | InnerCall.om m => truthyS m.stdout = false) →
        suf.countP isStdoutCall = 0) := by
  intro fuel
  induction fuel with
  | zero =>
    intro s c
    exact ⟨[], by simp [stepF], fun _ => rfl⟩
  | succ fuel ih =>
    intro s c
    cases c with
    | rn t =>
      simp only [stepF]
      have hbf := dispatchPrefix_calls s t
      have hbf0 : (if t.hasBeforeRun then [CallEv.beforeRun t.tid] else []).countP
          isStdoutCall = 0 := by
        split <;> simp [isStdoutCall]
      split
      · cases t.hookResult with
        | ok code2 =>
          dsimp only
          exact ⟨_, hbf, fun _ => hbf0⟩
        | throwsVal th =>
          dsimp only
          cases buildTranspileError th with
          | ok e =>
            dsimp only
            obtain ⟨suf₂, hsuf₂, hcnt₂⟩ := ih (dispatchPrefix s t)
              (InnerCall.om ⟨none, false, none, none, none, some e⟩)
            refine ⟨(if t.hasBeforeRun then [CallEv.beforeRun t.tid] else []) ++ suf₂, ?_, ?_⟩
            · rw [hsuf₂, hbf, List.append_assoc]
            · intro _
              rw [List.countP_append, hbf0, hcnt₂ (by rfl)]
          | error u =>
            dsimp only
            exact ⟨_, hbf, fun _ => hbf0⟩
      · exact ⟨_, hbf, fun _ => hbf0⟩
    | om m =>
      simp only [stepF]
      split
      · exact ⟨[], by simp, fun _ => rfl⟩
      · cases hres : resolveTask s m.id with
        | none => exact ⟨[], by simp, fun _ => rfl⟩
        | some task =>
          dsimp only
          split
          · -- truthy stdout: the premise of the count claim is false here
            next hst =>
            split
            · refine ⟨[CallEv.onStdout task.tid (m.stdout.getD "")], by simp, ?_⟩
              intro hcontra
              rw [hcontra] at hst
              exact absurd hst (by simp)
            · exact ⟨[], by simp, fun _ => rfl⟩
          · split
            · split
              · exact ⟨[CallEv.onStderr task.tid (m.stderr.getD "")], by simp,
                  fun _ => by simp [isStdoutCall]⟩
              · exact ⟨[], by simp, fun _ => rfl⟩
            · have hrc := routeCore_calls s task m
              split
              · have hq : ({ routeCore s task m with currentTask := none } :
                    SessionState).tasks = (routeCore s task m).tasks := rfl
                rw [hq]
                rcases htq : (routeCore s task m).tasks with _ | ⟨t2, rest⟩
                · dsimp only
                  exact ⟨routeCalls task m, hrc, fun _ => routeCalls_no_stdout task m⟩
                · dsimp only
                  obtain ⟨suf₂, h2, hc2⟩ := ih
                    ({ routeCore s task m with currentTask := none, tasks := rest } :
                      SessionState) (InnerCall.rn t2)
                  have hc5 :
                      ({ routeCore s task m with currentTask := none, tasks := rest } :
                        SessionState).calls = (routeCore s task m).calls := rfl
                  refine ⟨routeCalls task m ++ suf₂, h2.trans ?_,
                    fun _ => by rw [List.countP_append, routeCalls_no_stdout, hc2 trivial]⟩
                  rw [hc5, hrc, List.append_assoc]
              · exact ⟨routeCalls task m, hrc, fun _ => routeCalls_no_stdout task m⟩

/-- For a message that reaches the error-or-success branch, the final
callback log is the prior log, then the `routeCore` calls, then a
suffix (from dispatching the next queued task) containing no `onStdout`
invocation. -/
theorem stepF_om_calls_route (fuel : Nat) (s : SessionState) (m : Msg) (task : Task)
    (hlog : truthyS m.log = false)
    (hstdout : truthyS m.stdout = false)
    (hstderr : truthyS m.stderr = false)
    (hres : resolveTask s m.id = some task) :
    ∃ suf, (stepF (fuel + 1) s (InnerCall.om m)).calls =
      s.calls ++ routeCalls task m ++ suf ∧ suf.countP isStdoutCall = 0 := by
  simp only [stepF]
  split
  · next h => rw [hlog] at h; exact absurd h (by simp)
  · rw [hres]
    dsimp only
    split
    · next h => rw [hstdout] at h; exact absurd h (by simp)
    · split
      · next h => rw [hstderr] at h; exact absurd h (by simp)
      · have hrc := routeCore_calls s task m
        split
        · have hq : ({ routeCore s task m with currentTask := none } :
              SessionState).tasks = (routeCore s task m).tasks := rfl
          rw [hq]
          rcases htq : (routeCore s task m).tasks with _ | ⟨t2, rest⟩
          · dsimp only
            exact ⟨[], by rw [List.append_nil]; exact hrc, rfl⟩
          · dsimp only
            obtain ⟨suf₂, h2, hc2⟩ := stepF_calls fuel
              ({ routeCore s task m with currentTask := none, tasks := rest } :
                SessionState) (InnerCall.rn t2)
            have hc5 :
                ({ routeCore s task m with currentTask := none, tasks := rest } :
                  SessionState).calls = (routeCore s task m).calls := rfl
            refine ⟨suf₂, h2.trans ?_, hc2 trivial⟩
            rw [hc5, hrc]
        · exact ⟨[], by rw [List.append_nil]; exact hrc, rfl⟩

/-! ## The claims -/

/-- C1: For every sequence of `execute`/`complete`/`inspect` submissions
made while earlier tasks are still unfinished (any event trace), the
session sends dispatch messages to the Worker in exactly submission
order — the tids of the sent messages form an order-preserving
subsequence of the submission order — and at every instant at most one
dispatched task is awaiting its terminating reply: at most one message
sent to the worker belongs to a task to which no error-or-success reply
has been routed. -/
theorem c1_worker_dispatch_order_and_single_outstanding
    (cfg : NelConfig) (evs : List Ev) :
    (((runTrace cfg evs).sent.map SentMsg.tid).Sublist (runTrace cfg evs).submitted) ∧
    ((runTrace cfg evs).sent.filter
      (fun x => decide (x.tid ∉ (runTrace cfg evs).replied))).length ≤ 1 := by
  have h := runTrace_inv cfg evs
  have hdispSub : ((runTrace cfg evs).dispatched.map Prod.snd).Sublist
      (runTrace cfg evs).submitted := by
    rw [h.queue]
    exact List.sublist_append_left _ _
  refine ⟨h.core.sentSub.trans hdispSub, ?_⟩
  have hnodupSub : (runTrace cfg evs).submitted.Nodup := by
    rw [h.core.subRange]
    exact List.nodup_range _
  have hnodupDisp : ((runTrace cfg evs).dispatched.map Prod.snd).Nodup :=
    List.Nodup.sublist hdispSub hnodupSub
  have hnodupSent : ((runTrace cfg evs).sent.map SentMsg.tid).Nodup :=
    List.Nodup.sublist h.core.sentSub hnodupDisp
  have hsubf : (((runTrace cfg evs).sent.filter
        (fun x => decide (x.tid ∉ (runTrace cfg evs).replied))).map SentMsg.tid).Sublist
      ((runTrace cfg evs).sent.map SentMsg.tid) :=
    List.Sublist.map _ (List.filter_sublist _)
  have hnodupf := List.Nodup.sublist hsubf hnodupSent
  rw [← List.length_map _ SentMsg.tid]
  cases hcur : (runTrace cfg evs).currentTask with
  | none =>
    have hnil : ((runTrace cfg evs).sent.filter
        (fun x => decide (x.tid ∉ (runTrace cfg evs).replied))) = [] := by
      rw [List.filter_eq_nil_iff]
      intro x hx
      rcases h.core.oneInflight x hx with h1 | h2
      · simp [h1]
      · rw [hcur] at h2; exact absurd h2 (by simp)
    rw [hnil]
    simp
  | some c0 =>
    refine length_le_one_of_nodup_all_eq _ c0.tid hnodupf ?_
    intro a ha
    obtain ⟨x, hxf, rfl⟩ := List.mem_map.mp ha
    obtain ⟨hxs, hxp⟩ := List.mem_filter.mp hxf
    rcases h.core.oneInflight x hxs with h1 | h2
    · exact absurd h1 (by simpa using hxp)
    · rw [hcur] at h2
      simpa using h2.symm

/-- C2: Context ids allocated by dispatch form the sequence
`1, 2, 3, …`: in every reachable state the ids of the dispatch log are
exactly `range' 1 n` in dispatch order (so the first is 1, each
subsequent one is the previous plus 1, and no id is ever assigned
twice), and `lastContextId` equals the number of dispatches. -/
theorem c2_context_ids_consecutive_from_one (cfg : NelConfig) (evs : List Ev) :
    (runTrace cfg evs).dispatched.map Prod.fst =
      List.range' 1 (runTrace cfg evs).dispatched.length ∧
    (runTrace cfg evs).lastContextId = (runTrace cfg evs).dispatched.length ∧
    ((runTrace cfg evs).dispatched.map Prod.fst).Nodup := by
  have h := runTrace_inv cfg evs
  refine ⟨h.core.ids, h.core.ctxLen, ?_⟩
  rw [h.core.ids]
  exact List.nodup_range' _ _

/-- C3: evaluating the code at the failing input.  A transform hook that
throws the primitive string `"boom"` — a truthy value with no `name`,
`message` or `stack` — makes the catch block at nel.js:634-644 evaluate
`util.inspect(error)`, and `util` is never required in nel.js, so a
`ReferenceError` escapes to the caller (ghost `escapes = 1`): the Worker
is never sent the task's code, but no `onError` call is made either
(only `beforeRun` ran), contradicting the claim that the exception never
escapes and exactly one `onError` call is made. -/
theorem c3_transpile_hook_throw_escapes_on_missing_message :
    buildTranspileError ⟨true, "string", none, none, none⟩ = Except.error () ∧
    (runTrace ⟨none, some 0⟩
      [Ev.submit Action.run "1+1" (HookResult.throwsVal ⟨true, "string", none, none, none⟩)
        true true true true true true]).escapes = 1 ∧
    (runTrace ⟨none, some 0⟩
      [Ev.submit Action.run "1+1" (HookResult.throwsVal ⟨true, "string", none, none, none⟩)
        true true true true true true]).sent = [] ∧
    (runTrace ⟨none, some 0⟩
      [Ev.submit Action.run "1+1" (HookResult.throwsVal ⟨true, "string", none, none, none⟩)
        true true true true true true]).calls = [CallEv.beforeRun 0] := by
  refine ⟨rfl, ?_, ?_, ?_⟩ <;> decide

/-- C4: `complete("foo.b", 5)` parses scope `foo`, dispatches a
`getAllPropertyNames` task with code `"foo"`, and for a worker reply
`["bar","baz","qux"]` delivers `list = ["foo.bar","foo.baz"]`,
`matchedText = "foo.b"`, `cursorStart = 0`, `cursorEnd = 5`. -/
theorem c4_complete_foo_b :
    completeRun "foo.b" 5 ["bar", "baz", "qux"] =
      some ("foo",
        { list := ["foo.bar", "foo.baz"], code := "foo.b", cursorPos := 5,
          matchedText := "foo.b", cursorStart := 0, cursorEnd := 5 }) := by
  decide

/-- C5 counterexample: with scope `foo`, left operator `.` and selector
`b`, the name `bar` survives the prefix filter, but the delivered list
contains `foo.bar` — the wrap is `scope + leftOp + entry + rightOp` —
and not `leftOp + entry + rightOp = ".bar"` as the claim states. -/
theorem c5_counterexample_wrap_is_not_leftOp_entry_rightOp :
    jsLastIndexOfAt0 "bar".data "b".data = true ∧
    (completeOnSuccess "foo.b" 5 ⟨"foo.b", "foo", ".", "b", ""⟩ ["bar"]).list =
      ["foo.bar"] ∧
    ("." ++ "bar" ++ "" : String) ∉
      (completeOnSuccess "foo.b" 5 ⟨"foo.b", "foo", ".", "b", ""⟩ ["bar"]).list := by
  refine ⟨rfl, ?_, ?_⟩ <;> decide

/-- The names surviving `complete`'s filtering steps (nel.js:780-794):
the worker's names, plus the reserved words when the scope is empty,
filtered to those with the selector as a prefix when the selector is
non-empty. -/
def survivors (expr : Expression) (names : List String) : List String :=
  let matchList := names
  let matchList :=
    if expr.scope = "" then matchList ++ javascriptKeywords else matchList
  if expr.selector ≠ "" then
    matchList.filter (fun e => jsLastIndexOfAt0 e.data expr.selector.data)
  else matchList

/-- The wrapping step of `complete` (nel.js:797-803): prepend
`left = scope + leftOp` and append `right = rightOp` to each entry,
guarded by the truthiness of `left`/`right`; the guard is redundant,
since with both empty the map is the identity. -/
theorem wrap_map (expr : Expression) (L : List String) :
    (if (expr.scope ++ expr.leftOp) ≠ "" ∨ expr.rightOp ≠ "" then
       L.map (fun e => (expr.scope ++ expr.leftOp) ++ e ++ expr.rightOp) else L) =
      L.map (fun e => expr.scope ++ expr.leftOp ++ e ++ expr.rightOp) := by
  split
  · rfl
  · next h =>
    push_neg at h
    obtain ⟨ha, hb⟩ := h
    have hd := congrArg String.data ha
    rw [String.data_append] at hd
    have hnil := List.append_eq_nil.mp hd
    have hscope : expr.scope = "" := String.ext hnil.1
    have hleftOp : expr.leftOp = "" := String.ext hnil.2
    calc L = List.map (fun a => a) L := (List.map_id' L).symm
      _ = L.map (fun e => expr.scope ++ expr.leftOp ++ e ++ expr.rightOp) :=
        List.map_congr_left (fun e _ => by
          rw [hscope, hleftOp, hb, String.empty_append, String.empty_append,
            String.append_empty])

/-- C5 (amended): every name surviving the prefix filter appears in the
delivered completion list wrapped as `scope + leftOp + entry + rightOp`
(nel.js:797-803 prepends `left = scope + leftOp`, not `leftOp` alone) —
the delivered list is exactly the survivors so wrapped. -/
theorem c5_amended_wrap_includes_scope (code : String) (cursorPos : Int)
    (expr : Expression) (names : List String) :
    (completeOnSuccess code cursorPos expr names).list =
      (survivors expr names).map
        (fun e => expr.scope ++ expr.leftOp ++ e ++ expr.rightOp) := by
  unfold completeOnSuccess survivors
  dsimp only
  rw [wrap_map]

/-- C6 counterexample: a session with a transpile hook runs one task
whose hook throws a well-formed `Error`.  The task finishes — exactly
one `onError` was routed and the in-flight slot was cleared — yet the
context table still holds the stale entry `(1, task)`: the synthetic
error message (nel.js:635-644) carries no `id` and no `end` flag, so the
router never deletes the entry. -/
theorem c6_counterexample_stale_entry_after_hook_throw :
    (runTrace ⟨none, some 0⟩
      [Ev.submit Action.run "1+1"
        (HookResult.throwsVal ⟨true, "object", some "Error", some "boom", some "stk"⟩)
        true true true true true true]).currentTask = none ∧
    (runTrace ⟨none, some 0⟩
      [Ev.submit Action.run "1+1"
        (HookResult.throwsVal ⟨true, "object", some "Error", some "boom", some "stk"⟩)
        true true true true true true]).calls =
      [CallEv.beforeRun 0,
       CallEv.onError 0 ⟨"Error", "boom", TracebackVal.lines ["stk"]⟩] ∧
    (runTrace ⟨none, some 0⟩
      [Ev.submit Action.run "1+1"
        (HookResult.throwsVal ⟨true, "object", some "Error", some "boom", some "stk"⟩)
        true true true true true true]).contextTable.map (fun p => (p.1, p.2.tid)) =
      [(1, 0)] := by
  refine ⟨?_, ?_, ?_⟩ <;> decide

/-- C6 (amended): in every reachable session state, the context table
holds exactly one entry per dispatched context whose id has not been
removed by a routed end-flagged message: an entry is created at dispatch
and deleted only when a message with a truthy `end` flag carrying that
context id is routed.  A task that finishes without such a message — in
particular one whose transform hook threw, reported through `onError`
by a synthetic message with no `id` and no `end` — leaves its entry in
the table. -/
theorem c6_amended_table_tracks_end_flagged_removal (cfg : NelConfig) (evs : List Ev) :
    (runTrace cfg evs).contextTable.map (fun p => (p.1, p.2.tid)) =
      (runTrace cfg evs).dispatched.filter
        (fun p => decide (p.1 ∉ (runTrace cfg evs).endRouted)) :=
  (runTrace_inv cfg evs).core.table

/-- C7 counterexample: a session constructed with a working-directory
override and a transpile hook, when restarted, yields a session whose
transpile hook is gone: `restart` passes the stored
`this._config = {cwd, stdio}` — which has no `transpile` property — back
to the `Session` constructor. -/
theorem c7_counterexample_transpile_hook_lost :
    (mkSession ⟨some "/work", some 7⟩).transpile = some 7 ∧
    (restartSession (mkSession ⟨some "/work", some 7⟩) (some 0) (some "SIGTERM")).1.transpile
      = none ∧
    (restartSession (mkSession ⟨some "/work", some 7⟩) (some 0) (some "SIGTERM")).1.cwd
      = some "/work" :=
  ⟨rfl, rfl, rfl⟩

/-- C7 (amended): `restart(signal, callback)` kills the current session
and constructs a fresh session with the same working-directory override,
forwarding the kill callback's exit code and signal to `callback`
unchanged; but the new session has no transpile hook — the stored config
object reused by `restart` does not carry the `transpile` field. -/
theorem c7_amended_restart_keeps_cwd_drops_transpile
    (s : SessionState) (code : Option Int) (sig : Option String) :
    (restartSession s code sig).1.cwd = s.cwd ∧
    (restartSession s code sig).1.transpile = none ∧
    (restartSession s code sig).2 = (code, sig) ∧
    (restartSession s code sig).1.killed = false ∧
    (restartSession s code sig).1.tasks = [] ∧
    (restartSession s code sig).1.currentTask = none ∧
    (restartSession s code sig).1.contextTable = [] ∧
    (restartSession s code sig).1.lastContextId = 0 :=
  ⟨rfl, rfl, rfl, rfl, rfl, rfl, rfl, rfl⟩

/-- C8: a message whose `stdout` field is present but equal to the empty
string is not routed to the owning task's `onStdout` callback (the
router tests `if (message.stdout)`, i.e. truthiness, and `""` is falsy):
it falls through to the error-or-success branch, whose `onError` or
`onSuccess` call is the first new entry of the callback log, and no
`onStdout` invocation is recorded anywhere in the step. -/
theorem c8_empty_stdout_routed_as_error_or_success
    (s : SessionState) (m : Msg) (task : Task)
    (hlog : truthyS m.log = false)
    (hstdout : m.stdout = some "")
    (hstderr : truthyS m.stderr = false)
    (hres : resolveTask s m.id = some task)
    (herrCb : task.hasOnError = true)
    (hsucCb : task.hasOnSuccess = true) :
    (∃ first tail, (onMessageS s m).calls = s.calls ++ first :: tail ∧
      (first = CallEv.onSuccess task.tid ∨ ∃ e, first = CallEv.onError task.tid e)) ∧
    countStdout (onMessageS s m).calls = countStdout s.calls := by
  have hstd : truthyS m.stdout = false := by rw [hstdout]; rfl
  unfold onMessageS
  rw [show 2 * s.tasks.length + 2 = (2 * s.tasks.length + 1) + 1 from rfl]
  obtain ⟨suf, hcalls, hcnt⟩ :=
    stepF_om_calls_route (2 * s.tasks.length + 1) s m task hlog hstd hstderr hres
  constructor
  · cases herr : m.error with
    | some e =>
      refine ⟨CallEv.onError task.tid e,
        (if m.endFlag ∧ task.hasAfterRun then [CallEv.afterRun task.tid] else []) ++ suf,
        ?_, Or.inr ⟨e, rfl⟩⟩
      rw [hcalls]
      unfold routeCalls
      rw [herr]
      simp [herrCb]
    | none =>
      refine ⟨CallEv.onSuccess task.tid,
        (if m.endFlag ∧ task.hasAfterRun then [CallEv.afterRun task.tid] else []) ++ suf,
        ?_, Or.inl rfl⟩
      rw [hcalls]
      unfold routeCalls
      rw [herr]
      simp [hsucCb]
  · rw [hcalls]
    unfold countStdout
    rw [List.countP_append, List.countP_append, routeCalls_no_stdout, hcnt]
    omega

/-- C8 witness: a concrete session (one dispatched task resolved via the
context table) and a concrete success message with `stdout: ""`. -/
theorem c8_witness :
    (∃ first tail,
      (onMessageS
        (runTrace ⟨none, none⟩ [Ev.submit Action.run "1" (HookResult.ok "1")
          true true true true true true])
        ⟨some 1, false, none, some "", none, none⟩).calls =
        (runTrace ⟨none, none⟩ [Ev.submit Action.run "1" (HookResult.ok "1")
          true true true true true true]).calls ++ first :: tail ∧
      (first = CallEv.onSuccess 0 ∨ ∃ e, first = CallEv.onError 0 e)) ∧
    countStdout
      (onMessageS
        (runTrace ⟨none, none⟩ [Ev.submit Action.run "1" (HookResult.ok "1")
          true true true true true true])
        ⟨some 1, false, none, some "", none, none⟩).calls =
      countStdout
        (runTrace ⟨none, none⟩ [Ev.submit Action.run "1" (HookResult.ok "1")
          true true true true true true]).calls := by
  have h := c8_empty_stdout_routed_as_error_or_success
    (runTrace ⟨none, none⟩ [Ev.submit Action.run "1" (HookResult.ok "1")
      true true true true true true])
    ⟨some 1, false, none, some "", none, none⟩
    ⟨0, Action.run, "1", HookResult.ok "1", true, true, true, true, true, true⟩
    rfl rfl rfl (by decide) rfl rfl
  exact h

/-- C9: routing any inbound message that carries a non-empty `stdout` or
`stderr` payload leaves the pending queue, the in-flight slot, the
context table, the reply log, the end-removal log, the dispatch log and
the sent log unchanged — even when the message also carries an end flag:
the router returns from the streaming branch, so the end flag on a
streaming message never finalises the context and never triggers the
next dispatch. -/
theorem c9_streaming_message_frame (s : SessionState) (m : Msg)
    (h : truthyS m.stdout = true ∨ truthyS m.stderr = true) :
    (onMessageS s m).tasks = s.tasks ∧
    (onMessageS s m).currentTask = s.currentTask ∧
    (onMessageS s m).contextTable = s.contextTable ∧
    (onMessageS s m).replied = s.replied ∧
    (onMessageS s m).endRouted = s.endRouted ∧
    (onMessageS s m).dispatched = s.dispatched ∧
    (onMessageS s m).sent = s.sent := by
  unfold onMessageS
  rw [show 2 * s.tasks.length + 2 = (2 * s.tasks.length + 1) + 1 from rfl]
  simp only [stepF]
  split
  · exact ⟨rfl, rfl, rfl, rfl, rfl, rfl, rfl⟩
  · cases hres : resolveTask s m.id with
    | none => exact ⟨rfl, rfl, rfl, rfl, rfl, rfl, rfl⟩
    | some task =>
      dsimp only
      split
      · split
        · exact ⟨rfl, rfl, rfl, rfl, rfl, rfl, rfl⟩
        · exact ⟨rfl, rfl, rfl, rfl, rfl, rfl, rfl⟩
      · next hsd =>
        split
        · split
          · exact ⟨rfl, rfl, rfl, rfl, rfl, rfl, rfl⟩
          · exact ⟨rfl, rfl, rfl, rfl, rfl, rfl, rfl⟩
        · next hse =>
          rcases h with h | h
          · exact absurd h hsd
          · exact absurd h hse

/-- C9 witness: a concrete session with one dispatched task receiving a
stdout chunk that also carries an end flag. -/
theorem c9_witness :
    (onMessageS
      (runTrace ⟨none, none⟩ [Ev.submit Action.run "1" (HookResult.ok "1")
        true true true true true true])
      ⟨some 1, true, none, some "chunk", none, none⟩).tasks =
      (runTrace ⟨none, none⟩ [Ev.submit Action.run "1" (HookResult.ok "1")
        true true true true true true]).tasks ∧
    (onMessageS
      (runTrace ⟨none, none⟩ [Ev.submit Action.run "1" (HookResult.ok "1")
        true true true true true true])
      ⟨some 1, true, none, some "chunk", none, none⟩).currentTask =
      (runTrace ⟨none, none⟩ [Ev.submit Action.run "1" (HookResult.ok "1")
        true true true true true true]).currentTask ∧
    (onMessageS
      (runTrace ⟨none, none⟩ [Ev.submit Action.run "1" (HookResult.ok "1")
        true true true true true true])
      ⟨some 1, true, none, some "chunk", none, none⟩).contextTable =
      (runTrace ⟨none, none⟩ [Ev.submit Action.run "1" (HookResult.ok "1")
        true true true true true true]).contextTable ∧
    (onMessageS
      (runTrace ⟨none, none⟩ [Ev.submit Action.run "1" (HookResult.ok "1")
        true true true true true true])
      ⟨some 1, true, none, some "chunk", none, none⟩).replied =
      (runTrace ⟨none, none⟩ [Ev.submit Action.run "1" (HookResult.ok "1")
        true true true true true true]).replied ∧
    (onMessageS
      (runTrace ⟨none, none⟩ [Ev.submit Action.run "1" (HookResult.ok "1")
        true true true true true true])
      ⟨some 1, true, none, some "chunk", none, none⟩).endRouted =
      (runTrace ⟨none, none⟩ [Ev.submit Action.run "1" (HookResult.ok "1")
        true true true true true true]).endRouted ∧
    (onMessageS
      (runTrace ⟨none, none⟩ [Ev.submit Action.run "1" (HookResult.ok "1")
        true true true true true true])
      ⟨some 1, true, none, some "chunk", none, none⟩).dispatched =
      (runTrace ⟨none, none⟩ [Ev.submit Action.run "1" (HookResult.ok "1")
        true true true true true true]).dispatched ∧
    (onMessageS
      (runTrace ⟨none, none⟩ [Ev.submit Action.run "1" (HookResult.ok "1")
        true true true true true true])
      ⟨some 1, true, none, some "chunk", none, none⟩).sent =
      (runTrace ⟨none, none⟩ [Ev.submit Action.run "1" (HookResult.ok "1")
        true true true true true true]).sent :=
  c9_streaming_message_frame
    (runTrace ⟨none, none⟩ [Ev.submit Action.run "1" (HookResult.ok "1")
      true true true true true true])
    ⟨some 1, true, none, some "chunk", none, none⟩
    (Or.inl (by decide))

/-- C10: `parseExpression` is total: for every string and every integer
cursor position (negative or past the end included) it returns either
the unsupported marker `none` or `some` record of the five string
fields — the embedding's out-of-range accesses (`jsSliceChars`,
`getLast?` on the empty string) mirror Javascript's non-throwing
semantics at those points. -/
theorem c10_parseExpression_total (code : String) (cursorPos : Int) :
    parseExpression code cursorPos = none ∨
      ∃ e : Expression, parseExpression code cursorPos = some e := by
  cases h : parseExpression code cursorPos with
  | none => exact Or.inl rfl
  | some e => exact Or.inr ⟨e, rfl⟩

end Nel
